import Mathlib

/-!
# RetroViewer — verification of the break-aware playback scheduler and timeline projector

Shallow embedding of the scheduling core of `Scripts/FeaturePlayer.py` and
`Scripts/StreamServer.py` (with the duration cache of `Scripts/db_helper.py`),
together with proofs of the spec's testable properties.

Conventions:
* times and offsets are integer milliseconds (`ℤ` where the Python value may be
  negative or is compared with signed arithmetic, `ℕ` for counters);
* wall-clock float seconds (`time.time()`, ffprobe durations) are embedded as `ℚ`;
* fallible operations return `Option`/`Bool`; the sqlite `videos` table is an
  association list `List (String × Option ℚ)` (a row's `duration` column is nullable).
-/

namespace RetroViewer

/-! ## Timestamp Normalizer (`FeaturePlayer.load_timestamps_for` / `load_movie`)

`load_timestamps_for` collects the parsed break offsets and normalizes them with
`sorted(set(breaks))`.  `load_movie` then filters them to the playback window
`[start_ms, end_ms)` (`end_ms` optional) and re-sorts the filtered list. -/

/-- `sorted(set(B))` from `load_timestamps_for` line 171: ascending list of the
distinct values of `B`. -/
def normalizeBreaks (B : List ℤ) : List ℤ :=
  List.insertionSort (· ≤ ·) B.dedup

/-- Membership test of the window filter in `load_movie` lines 363-369:
keep `b` unless `b < start_ms`, or `end_ms` is set and `b ≥ end_ms`. -/
def inWindow (startMs : ℤ) (endMs : Option ℤ) (b : ℤ) : Bool :=
  if b < startMs then false
  else match endMs with
    | some e => if b ≥ e then false else true
    | none => true

/-- The loop of `load_movie` lines 363-369 building `filtered_breaks`. -/
def filterWindow (startMs : ℤ) (endMs : Option ℤ) (l : List ℤ) : List ℤ :=
  l.filter (inWindow startMs endMs)

/-- The full break-list pipeline run when a feature is loaded:
`load_timestamps_for` normalizes (`sorted(set(...))`), then `load_movie`
window-filters and stores `sorted(filtered_breaks)` (lines 371-372). -/
def loadBreaks (B : List ℤ) (startMs : ℤ) (endMs : Option ℤ) : List ℤ :=
  List.insertionSort (· ≤ ·) (filterWindow startMs endMs (normalizeBreaks B))

lemma mem_normalizeBreaks (B : List ℤ) (b : ℤ) :
    b ∈ normalizeBreaks B ↔ b ∈ B := by
  unfold normalizeBreaks
  rw [(List.perm_insertionSort (· ≤ ·) B.dedup).mem_iff]
  exact List.mem_dedup

lemma nodup_normalizeBreaks (B : List ℤ) : (normalizeBreaks B).Nodup :=
  (List.perm_insertionSort (· ≤ ·) B.dedup).nodup_iff.mpr B.nodup_dedup

lemma inWindow_iff (s : ℤ) (e : Option ℤ) (b : ℤ) :
    inWindow s e b = true ↔ s ≤ b ∧ ∀ ee ∈ e, b < ee := by
  unfold inWindow
  cases e <;> split_ifs <;> simp_all

lemma mem_loadBreaks (B : List ℤ) (s : ℤ) (e : Option ℤ) (b : ℤ) :
    b ∈ loadBreaks B s e ↔ b ∈ B ∧ s ≤ b ∧ ∀ ee ∈ e, b < ee := by
  unfold loadBreaks filterWindow
  rw [(List.perm_insertionSort (· ≤ ·) _).mem_iff, List.mem_filter,
    mem_normalizeBreaks, inWindow_iff]

lemma sorted_lt_loadBreaks (B : List ℤ) (s : ℤ) (e : Option ℤ) :
    (loadBreaks B s e).Sorted (· < ·) := by
  have hsorted : (loadBreaks B s e).Sorted (· ≤ ·) :=
    List.sorted_insertionSort (· ≤ ·) _
  have hnodup : (loadBreaks B s e).Nodup := by
    unfold loadBreaks filterWindow
    exact (List.perm_insertionSort (· ≤ ·) _).nodup_iff.mpr
      ((nodup_normalizeBreaks B).filter _)
  exact hsorted.lt_of_le hnodup

lemma loadBreaks_idem (B : List ℤ) (s : ℤ) (e : Option ℤ) :
    loadBreaks (loadBreaks B s e) s e = loadBreaks B s e := by
  have hs := sorted_lt_loadBreaks B s e
  have hnodup : (loadBreaks B s e).Nodup := hs.nodup
  have hfilter : filterWindow s e (loadBreaks B s e) = loadBreaks B s e := by
    unfold filterWindow
    apply List.filter_eq_self.mpr
    intro b hb
    exact (inWindow_iff s e b).mpr ((mem_loadBreaks B s e b).mp hb).2
  have hnorm : normalizeBreaks (loadBreaks B s e) = loadBreaks B s e := by
    unfold normalizeBreaks
    rw [List.dedup_eq_self.mpr hnodup]
    exact List.Sorted.insertionSort_eq (hs.le_of_lt)
  rw [loadBreaks, hnorm, hfilter]
  exact List.Sorted.insertionSort_eq (hs.le_of_lt)

/-- **C1.** The break-list filtering run at feature load (normalize in
`load_timestamps_for`, then window-filter and sort in `load_movie`) returns
exactly the break offsets `b ∈ B` with `startMs ≤ b`, and `b < e` whenever the
window end `e` is known; the result is sorted strictly ascending (hence without
duplicates), and the pipeline is idempotent on its own output. -/
theorem load_breaks_window_filtering_correct (B : List ℤ) (s : ℤ) (e : Option ℤ) :
    (∀ b : ℤ, b ∈ loadBreaks B s e ↔ b ∈ B ∧ s ≤ b ∧ ∀ ee ∈ e, b < ee) ∧
    (loadBreaks B s e).Sorted (· < ·) ∧
    loadBreaks (loadBreaks B s e) s e = loadBreaks B s e :=
  ⟨mem_loadBreaks B s e, sorted_lt_loadBreaks B s e, loadBreaks_idem B s e⟩

/-- Concrete instance of C1 (the spec's own example): breaks
`[5000, 12000, 12000, 20000]` in window `[0, 15000)` normalize to `[5000, 12000]`. -/
theorem load_breaks_window_filtering_correct_witness :
    (∀ b : ℤ, b ∈ loadBreaks [5000, 12000, 12000, 20000] 0 (some 15000) ↔
      b ∈ ([5000, 12000, 12000, 20000] : List ℤ) ∧ 0 ≤ b ∧
        ∀ ee ∈ (some 15000 : Option ℤ), b < ee) ∧
    (loadBreaks [5000, 12000, 12000, 20000] 0 (some 15000)).Sorted (· < ·) ∧
    loadBreaks (loadBreaks [5000, 12000, 12000, 20000] 0 (some 15000)) 0 (some 15000) =
      loadBreaks [5000, 12000, 12000, 20000] 0 (some 15000) :=
  load_breaks_window_filtering_correct [5000, 12000, 12000, 20000] 0 (some 15000)

/-! ## ADS → MOVIE resume decision (`FeaturePlayer.controller` lines 629-654)

When the controller leaves the `ADS` state it swaps the feature media back,
computes `resume_ms = max(movie_state["start_ms"], saved_pos_ms[0] + 50)` and
either advances to the next feature (when a configured end is already passed)
or seeks to `resume_ms` and resumes. -/

/-- `saved_pos_ms[0] + 50` epsilon used at controller line 637. -/
def RESUME_EPSILON_MS : ℤ := 50

/-- Outcome of the ADS → MOVIE transition. -/
inductive ResumeAction where
  | advanceToNext
  | resumeAt (targetMs : ℤ)
  deriving DecidableEq, Repr

/-- The decision at controller lines 636-654: compute the resume target; if the
feature has a configured end and the target is at or past it, advance to the
next feature, otherwise seek to the target and resume. -/
def adsToMovieAction (startMs savedPosMs : ℤ) (endMs : Option ℤ) : ResumeAction :=
  let resume_ms := max startMs (savedPosMs + RESUME_EPSILON_MS)
  match endMs with
  | some e => if resume_ms ≥ e then .advanceToNext else .resumeAt resume_ms
  | none => .resumeAt resume_ms

/-- **C3.** On the ADS → MOVIE transition the controller computes
`resumeTarget = max(windowStart, savedResumeOffset + 50 ms)`; when the window
end is known and `resumeTarget` is at or past it, the controller advances to
the next feature instead of resuming, and otherwise it seeks to `resumeTarget`
and resumes. -/
theorem ads_to_movie_resume_decision (startMs savedPosMs : ℤ) (endMs : Option ℤ) :
    (∀ e, endMs = some e → max startMs (savedPosMs + RESUME_EPSILON_MS) ≥ e →
      adsToMovieAction startMs savedPosMs endMs = .advanceToNext) ∧
    ((endMs = none ∨ ∃ e, endMs = some e ∧ max startMs (savedPosMs + RESUME_EPSILON_MS) < e) →
      adsToMovieAction startMs savedPosMs endMs =
        .resumeAt (max startMs (savedPosMs + RESUME_EPSILON_MS))) := by
  constructor
  · rintro e rfl he
    simp [adsToMovieAction, he]
  · rintro (rfl | ⟨e, rfl, he⟩)
    · rfl
    · simp [adsToMovieAction, not_le.mpr he]

/-- Concrete instance of C3 (the spec's own example): window end `60000`,
resume target `60200` (saved offset `60150`) → the controller advances instead
of resuming. -/
theorem ads_to_movie_resume_decision_witness :
    adsToMovieAction 0 60150 (some 60000) = .advanceToNext :=
  (ads_to_movie_resume_decision 0 60150 (some 60000)).1 60000 rfl (by decide)

/-! ## Break-cycle filler countdown (`FeaturePlayer.controller` lines 615-624)

Entering a break sets `ads_remaining[0] = ads_per_break` (line 593); the `ADS`
branch then runs `while ads_remaining[0] > 0`, breaking out early when the
filler order/list is empty and otherwise playing one filler and decrementing. -/

/-- Successive values of `ads_remaining[0]` after each decrement of the `while`
loop at controller lines 617-624, given the filler order length (`len(order[0])`;
the loop `break`s when it is zero). -/
def adsTrace (fillerLen : ℕ) : ℕ → List ℕ
  | 0 => []
  | r + 1 => if fillerLen = 0 then [] else r :: adsTrace fillerLen r

lemma adsTrace_pos (fillerLen : ℕ) (hf : 0 < fillerLen) (a : ℕ) :
    adsTrace fillerLen a = (List.range a).reverse := by
  induction a with
  | zero => rfl
  | succ n ih =>
    rw [adsTrace, if_neg (Nat.pos_iff_ne_zero.mp hf), ih]
    rw [List.range_succ, List.reverse_append]
    rfl

/-- **C4.** In a break cycle entered with `remainingFiller = adsPerBreak` over a
non-empty filler order (the player refuses to start with an empty filler
playlist, and reshuffling preserves its length), the counter is decremented
exactly `adsPerBreak` times, the value sequence starting from `adsPerBreak`
strictly decreases, and it ends at zero. -/
theorem break_cycle_filler_countdown (fillerLen adsPerBreak : ℕ) (hf : 0 < fillerLen) :
    (adsTrace fillerLen adsPerBreak).length = adsPerBreak ∧
    List.Chain' (· > ·) (adsPerBreak :: adsTrace fillerLen adsPerBreak) ∧
    (adsPerBreak :: adsTrace fillerLen adsPerBreak).getLast (by simp) = 0 := by
  rw [adsTrace_pos fillerLen hf]
  refine ⟨by simp, ?_, ?_⟩
  · induction adsPerBreak with
    | zero => simp
    | succ n ih =>
      rw [List.range_succ, List.reverse_append]
      exact List.Chain'.cons (by omega) ih
  · induction adsPerBreak with
    | zero => rfl
    | succ n ih =>
      rw [List.range_succ, List.reverse_append, List.getLast_cons]
      exact ih

/-- Concrete instance of C4: filler order of length 2, `adsPerBreak = 3`. -/
theorem break_cycle_filler_countdown_witness :
    (adsTrace 2 3).length = 3 ∧
    List.Chain' (· > ·) (3 :: adsTrace 2 3) ∧
    (3 :: adsTrace 2 3).getLast (by simp) = 0 :=
  break_cycle_filler_countdown 2 3 (by decide)

/-! ## Break cursor (`FeaturePlayer.controller` lines 586-592, `load_movie` 371-373)

`load_movie` resets `next_break_index[0] = 0` over the freshly filtered
`breaks_ms`.  Each `MOVIE`-mode tick compares the live position against
`breaks_ms[next_break_index[0]]` and, on reach-or-pass, fires the break and
advances the cursor by one.  The cursor is never moved elsewhere. -/

/-- One `MOVIE`-mode tick of the break check (controller lines 587-591):
given the cursor and the sampled position, return the new cursor and whether
the breakpoint at the cursor fired. -/
def breakStep (breaks : List ℤ) (cursor : ℕ) (posMs : ℤ) : ℕ × Bool :=
  if h : cursor < breaks.length then
    if breaks.get ⟨cursor, h⟩ ≤ posMs then (cursor + 1, true) else (cursor, false)
  else (cursor, false)

/-- Run the break check over a sequence of sampled positions, collecting the
indices of the breakpoints that fired and the final cursor. -/
def runBreaks (breaks : List ℤ) (cursor : ℕ) : List ℤ → List ℕ × ℕ
  | [] => ([], cursor)
  | p :: ps =>
    if (breakStep breaks cursor p).2 then
      ((runBreaks breaks (breakStep breaks cursor p).1 ps).1.cons cursor,
        (runBreaks breaks (breakStep breaks cursor p).1 ps).2)
    else runBreaks breaks (breakStep breaks cursor p).1 ps

lemma breakStep_cursor_le (breaks : List ℤ) (cursor : ℕ) (p : ℤ) :
    cursor ≤ (breakStep breaks cursor p).1 := by
  unfold breakStep
  split
  · split <;> simp
  · simp

lemma breakStep_fired_succ (breaks : List ℤ) (cursor : ℕ) (p : ℤ)
    (h : (breakStep breaks cursor p).2 = true) :
    (breakStep breaks cursor p).1 = cursor + 1 := by
  unfold breakStep at h ⊢
  split at h
  · split at h
    · simp_all [breakStep]
    · simp at h
  · simp at h

lemma runBreaks_fired_ge (breaks : List ℤ) (cursor : ℕ) (ps : List ℤ) :
    ∀ i ∈ (runBreaks breaks cursor ps).1, cursor ≤ i := by
  induction ps generalizing cursor with
  | nil => intro i hi; simp [runBreaks] at hi
  | cons p ps ih =>
    intro i hi
    rw [runBreaks] at hi
    split at hi
    · rcases List.mem_cons.mp hi with rfl | hi
      · exact le_refl i
      · exact le_trans (breakStep_cursor_le breaks cursor p)
          (ih (breakStep breaks cursor p).1 i hi)
    · exact le_trans (breakStep_cursor_le breaks cursor p)
        (ih (breakStep breaks cursor p).1 i hi)

lemma runBreaks_fired_sorted (breaks : List ℤ) (cursor : ℕ) (ps : List ℤ) :
    ((runBreaks breaks cursor ps).1).Sorted (· < ·) := by
  induction ps generalizing cursor with
  | nil => simp [runBreaks]
  | cons p ps ih =>
    rw [runBreaks]
    split
    · rename_i hfire
      refine List.sorted_cons.mpr ⟨?_, ih (breakStep breaks cursor p).1⟩
      intro i hi
      have hge := runBreaks_fired_ge breaks (breakStep breaks cursor p).1 ps i hi
      have hsucc := breakStep_fired_succ breaks cursor p hfire
      omega
    · exact ih (breakStep breaks cursor p).1

lemma runBreaks_cursor_le (breaks : List ℤ) (cursor : ℕ) (ps : List ℤ) :
    cursor ≤ (runBreaks breaks cursor ps).2 := by
  induction ps generalizing cursor with
  | nil => simp [runBreaks]
  | cons p ps ih =>
    rw [runBreaks]
    have hle := breakStep_cursor_le breaks cursor p
    split
    · exact le_trans hle (ih (breakStep breaks cursor p).1)
    · exact le_trans hle (ih (breakStep breaks cursor p).1)

/-- **C5.** Over any sequence of sampled positions in one session, the break
cursor never moves backwards, and the indices of the breakpoints that fire are
strictly increasing — so once the breakpoint at the cursor has fired it is
never evaluated or fired again: each index fires at most once and only indices
at or after the starting cursor ever fire. -/
theorem break_cursor_monotonic (breaks : List ℤ) (cursor : ℕ) (ps : List ℤ) :
    cursor ≤ (runBreaks breaks cursor ps).2 ∧
    ((runBreaks breaks cursor ps).1).Sorted (· < ·) ∧
    ∀ i ∈ (runBreaks breaks cursor ps).1, cursor ≤ i :=
  ⟨runBreaks_cursor_le breaks cursor ps, runBreaks_fired_sorted breaks cursor ps,
    runBreaks_fired_ge breaks cursor ps⟩

/-- Concrete instance of C5: breaks `[5000, 12000]` from cursor `0`, sampled
positions `[1000, 6000, 6200, 13000, 14000]` — fired indices `[0, 1]`, strictly
increasing, final cursor `2`. -/
theorem break_cursor_monotonic_witness :
    0 ≤ (runBreaks [5000, 12000] 0 [1000, 6000, 6200, 13000, 14000]).2 ∧
    ((runBreaks [5000, 12000] 0 [1000, 6000, 6200, 13000, 14000]).1).Sorted (· < ·) ∧
    ∀ i ∈ (runBreaks [5000, 12000] 0 [1000, 6000, 6200, 13000, 14000]).1, 0 ≤ i :=
  break_cursor_monotonic [5000, 12000] 0 [1000, 6000, 6200, 13000, 14000]

/-! ## Command debouncing (`FeaturePlayer.debounce_and_put` lines 657-661)

`debounce_and_put(cmd)` reads `now = time.time()` and enqueues the command only
when `now - last_press_time[0] > press_cooldown`, in which case it also updates
`last_press_time[0] = now`.  Times are embedded as `ℚ` (Python floats). -/

/-- `press_cooldown = 0.4` seconds (FeaturePlayer line 323). -/
def press_cooldown : ℚ := 2 / 5

/-- One call of `debounce_and_put` at event time `t` with last-accepted time
`last`: returns the new last-accepted time and whether the event was accepted
(enqueued). -/
def debounceStep (last t : ℚ) : ℚ × Bool :=
  if t - last > press_cooldown then (t, true) else (last, false)

/-- A run of `debounce_and_put` over a list of event times, collecting the
accepted (enqueued) event times. -/
def runDebounce (last : ℚ) : List ℚ → List ℚ
  | [] => []
  | t :: ts =>
    if (debounceStep last t).2 then t :: runDebounce t ts
    else runDebounce last ts

/-- **Counterexample to C6 as stated.** The claim says an event is accepted
when *at least* the cooldown has elapsed since the last accepted event.  With
last-accepted time `1` and a second event at `1 + 2/5` — exactly the cooldown
elapsed — the code drops the second event, because `debounce_and_put` uses a
strict comparison (`now - last_press_time[0] > press_cooldown`). -/
theorem debounce_boundary_counterexample :
    runDebounce 0 [1, 1 + 2/5] = [1] ∧ (1 + 2/5 : ℚ) - 1 ≥ press_cooldown := by
  constructor
  · have hstep : (debounceStep 1 (1 + 2/5)).2 = false := by
      rw [debounceStep, press_cooldown]
      norm_num
    have hstep1 : (debounceStep 0 1).2 = true := by
      rw [debounceStep, press_cooldown]
      norm_num
    simp [runDebounce, hstep, hstep1]
  · rw [press_cooldown]
    norm_num

/-- **C6 (amended).** After an accepted event at time `t1`, a second event at
time `t2` is accepted iff *strictly more* than the cooldown has elapsed:
within-or-exactly-at the cooldown it is dropped (not queued), and strictly past
the cooldown it is accepted. -/
theorem debounce_cooldown (last t1 t2 : ℚ) (h1 : press_cooldown < t1 - last) :
    (press_cooldown < t2 - t1 → runDebounce last [t1, t2] = [t1, t2]) ∧
    (t2 - t1 ≤ press_cooldown → runDebounce last [t1, t2] = [t1]) := by
  constructor
  · intro h2
    simp [runDebounce, debounceStep, h1, h2]
  · intro h2
    simp [runDebounce, debounceStep, h1, not_lt.mpr h2]

/-- Concrete instance of C6 (amended): events at `1` and `2` (gap `1 > 2/5`)
are both accepted. -/
theorem debounce_cooldown_witness : runDebounce 0 [1, 2] = [1, 2] :=
  (debounce_cooldown 0 1 2 (by norm_num [press_cooldown])).1 (by norm_num [press_cooldown])

/-! ## Ad/Filler Sequencer (`FeaturePlayer` lines 254-284, 462-482)

State of the sequencer: `video_files[0]` (the filler filenames), `order[0]`
(a permutation of `range n` — `list(range(n))` optionally `random.shuffle`d),
and `video_pos[0]` (cursor into `order[0]`).  The random permutation produced
by `build_order` is passed in as a parameter `newOrd`; the spec's invariant is
that it is a bijection over `[0, n)`, i.e. a permutation of `List.range n`. -/

structure SeqState where
  files : List String
  pord : List ℕ
  pos : ℕ
  deriving Repr

/-- `current_video_name` (lines 270-274): `None` when the order or file list is
empty, else `video_files[0][order[0][video_pos[0]]]` (totalized with `get?`;
the guarded call sites keep both indices in range). -/
def current_video_name (s : SeqState) : Option String :=
  if s.pord.isEmpty || s.files.isEmpty then none
  else match s.pord.get? s.pos with
    | some i => s.files.get? i
    | none => none

/-- `build_order` (lines 259-268) with the freshly generated order `newOrd`
(`list(range(n))`, shuffled in place when shuffle mode is on): when the file
list is empty, clear the order and cursor; otherwise install the new order and
reduce the cursor `video_pos[0] %= max(1, len(order[0]))`. -/
def build_order (newOrd : List ℕ) (s : SeqState) : SeqState :=
  if s.files.length = 0 then { s with pord := [], pos := 0 }
  else { s with pord := newOrd, pos := s.pos % max 1 newOrd.length }

/-- `reshuffle_current` (lines 472-482): remember the current filler name,
rebuild the order, then reposition the cursor at the new index of that name
(first occurrence in `video_files[0]`, located in the fresh order; `0` if the
lookup fails). -/
def reshuffle_current (newOrd : List ℕ) (s : SeqState) : SeqState :=
  if s.files.isEmpty then s
  else
    match current_video_name s, build_order newOrd s with
    | some name, s' =>
      if name ∈ s'.files then
        if s'.files.indexOf name ∈ s'.pord then
          { s' with pos := s'.pord.indexOf (s'.files.indexOf name) }
        else { s' with pos := 0 }
      else s'
    | none, s' => s'

/-- **C7.** For every non-empty filler list and every in-range cursor position,
with the current and the freshly generated orders both permutations of
`[0, n)`, `reshuffle_current` leaves the currently-referenced filler name
unchanged: `current_video_name` returns the same value before and after. -/
theorem reshuffle_preserves_current (files : List String) (ord newOrd : List ℕ) (pos : ℕ)
    (hne : files ≠ [])
    (hperm : ord.Perm (List.range files.length))
    (hpos : pos < ord.length)
    (hperm' : newOrd.Perm (List.range files.length)) :
    current_video_name (reshuffle_current newOrd ⟨files, ord, pos⟩) =
      current_video_name ⟨files, ord, pos⟩ := by
  have hn : 0 < files.length := List.length_pos.mpr hne
  have hlord : ord.length = files.length := by
    rw [hperm.length_eq, List.length_range]
  have hlnew : newOrd.length = files.length := by
    rw [hperm'.length_eq, List.length_range]
  -- the current entry before the reshuffle
  have hi0 : ord.get? pos = some (ord.get ⟨pos, hpos⟩) := List.get?_eq_get hpos
  set i0 := ord.get ⟨pos, hpos⟩ with hi0def
  have hi0mem : i0 ∈ ord := List.get_mem ord pos hpos
  have hi0lt : i0 < files.length := List.mem_range.mp (hperm.subset hi0mem)
  have hname : files.get? i0 = some (files.get ⟨i0, hi0lt⟩) := List.get?_eq_get hi0lt
  set name := files.get ⟨i0, hi0lt⟩ with hnamedef
  have hnamemem : name ∈ files := List.get_mem files i0 hi0lt
  have hordne : ord ≠ [] := List.ne_nil_of_length_pos (hlord ▸ hn)
  have hcur : current_video_name ⟨files, ord, pos⟩ = some name := by
    rw [current_video_name, if_neg (by simp [hordne, hne])]
    show (match ord.get? pos with
      | some i => files.get? i
      | none => none) = some name
    rw [hi0]
    exact hname
  -- the state after the reshuffle
  have hidx : files.indexOf name < files.length := List.indexOf_lt_length.mpr hnamemem
  have hidxmem : files.indexOf name ∈ newOrd :=
    hperm'.mem_iff.mpr (List.mem_range.mpr hidx)
  have hnewne : newOrd ≠ [] := List.ne_nil_of_length_pos (hlnew ▸ hn)
  have hfne0 : ¬ (files.length = 0) := by omega
  have hbuild : build_order newOrd ⟨files, ord, pos⟩ =
      { files := files, pord := newOrd, pos := pos % max 1 newOrd.length } := by
    simp only [build_order]
    rw [if_neg hfne0]
  have hresh : reshuffle_current newOrd ⟨files, ord, pos⟩ =
      { files := files, pord := newOrd, pos := newOrd.indexOf (files.indexOf name) } := by
    rw [reshuffle_current, if_neg (by simp [hne]), hcur, hbuild]
    show (if name ∈ files then
        if files.indexOf name ∈ newOrd then
          ({ files := files, pord := newOrd,
             pos := newOrd.indexOf (files.indexOf name) } : SeqState)
        else { files := files, pord := newOrd, pos := 0 }
      else { files := files, pord := newOrd, pos := pos % max 1 newOrd.length }) =
      { files := files, pord := newOrd, pos := newOrd.indexOf (files.indexOf name) }
    rw [if_pos hnamemem, if_pos hidxmem]
  rw [hresh, hcur, current_video_name, if_neg (by simp [hnewne, hne])]
  have hposnew : newOrd.indexOf (files.indexOf name) < newOrd.length :=
    List.indexOf_lt_length.mpr hidxmem
  show (match newOrd.get? (newOrd.indexOf (files.indexOf name)) with
    | some i => files.get? i
    | none => none) = some name
  rw [List.indexOf_get? hidxmem]
  show files.get? (files.indexOf name) = some name
  exact List.indexOf_get? hnamemem

/-- Concrete instance of C7: files `["a", "b"]`, order `[1, 0]`, cursor `0`
(current name `"b"`), reshuffled to order `[0, 1]` — the current name is
preserved. -/
theorem reshuffle_preserves_current_witness :
    current_video_name (reshuffle_current [0, 1] ⟨["a", "b"], [1, 0], 0⟩) =
      current_video_name ⟨["a", "b"], [1, 0], 0⟩ :=
  reshuffle_preserves_current ["a", "b"] [1, 0] [0, 1] 0 (by decide)
    (by rw [show List.range (["a", "b"] : List String).length = [0, 1] from rfl]
        exact List.Perm.swap 0 1 [])
    (by decide)
    (by rw [show List.range (["a", "b"] : List String).length = [0, 1] from rfl])

/-! ## Timeline Projector (`StreamServer.generate_xmltv_guide` lines 202-277)

For each non-empty playlist the projector walks `videos[video_index % len(videos)]`
from `schedule_start` to `schedule_start + timedelta(hours=24)`:
`while current_time < end_time`, it resolves a duration for the current video,
emits a programme entry spanning `[current_time, current_time + duration)`, and
advances `current_time = program_end`, `video_index += 1`.  Times are embedded
as `ℕ` time units (every duration-resolution path of the source yields a
positive duration: a truthy cached value, a positive probed value, or the
30 s / 180 s fallbacks). -/

/-- The 24-hour horizon (`timedelta(hours=24)`), in seconds. -/
def horizonSeconds : ℕ := 24 * 60 * 60

/-- `videos[video_index % len(videos)]` followed by duration resolution: the
duration used at step `i` of the channel walk, for a non-empty `videos` list. -/
def cycleDuration {α : Type} (resolve : α → ℕ) : List α → ℕ → ℕ
  | [], _ => 0
  | v :: vs, i => resolve ((v :: vs).get ⟨i % (v :: vs).length, Nat.mod_lt _ (Nat.succ_pos _)⟩)

/-- The `while current_time < end_time` loop, fuelled (the fuel only needs to
cover `end_time - current_time` steps once every duration is positive): emits
the list of `(start, stop)` spans of the generated programme entries. -/
def guideEntries (dur : ℕ → ℕ) (endTime : ℕ) : ℕ → ℕ → ℕ → List (ℕ × ℕ)
  | 0, _, _ => []
  | fuel + 1, currentTime, i =>
    if currentTime < endTime then
      (currentTime, currentTime + dur i) ::
        guideEntries dur endTime fuel (currentTime + dur i) (i + 1)
    else []

lemma guideEntries_eq_nil (dur : ℕ → ℕ) (endTime fuel c i : ℕ) (h : ¬ c < endTime) :
    guideEntries dur endTime fuel c i = [] := by
  cases fuel with
  | zero => rfl
  | succ f => rw [guideEntries, if_neg h]

lemma guideEntries_spec (dur : ℕ → ℕ) (endTime : ℕ) (hdur : ∀ i, 0 < dur i) :
    ∀ (fuel currentTime i : ℕ), currentTime < endTime → endTime ≤ currentTime + fuel →
      (guideEntries dur endTime fuel currentTime i ≠ [] ∧
       (guideEntries dur endTime fuel currentTime i).head?.map Prod.fst = some currentTime ∧
       List.Chain' (fun a b => a.2 = b.1) (guideEntries dur endTime fuel currentTime i) ∧
       (∀ p ∈ guideEntries dur endTime fuel currentTime i, p.1 < p.2 ∧ p.1 < endTime) ∧
       ∀ h : guideEntries dur endTime fuel currentTime i ≠ [],
         endTime ≤ ((guideEntries dur endTime fuel currentTime i).getLast h).2) := by
  intro fuel
  induction fuel with
  | zero => intro currentTime i hlt hle; omega
  | succ f ih =>
    intro currentTime i hlt hle
    rw [guideEntries, if_pos hlt]
    have hd := hdur i
    by_cases hnext : currentTime + dur i < endTime
    · have hle' : endTime ≤ currentTime + dur i + f := by omega
      obtain ⟨hne, hhead, hchain, hin, hlast⟩ := ih (currentTime + dur i) (i + 1) hnext hle'
      refine ⟨by simp, by simp, ?_, ?_, ?_⟩
      · refine List.Chain'.cons' hchain ?_
        intro b hb
        have hb' : (guideEntries dur endTime f (currentTime + dur i) (i + 1)).head? =
            some b := hb
        rw [hb'] at hhead
        simp only [Option.map_some', Option.some.injEq] at hhead
        exact hhead.symm
      · intro p hp
        rcases List.mem_cons.mp hp with rfl | hp
        · exact ⟨by omega, hlt⟩
        · exact hin p hp
      · intro h
        rw [List.getLast_cons hne]
        exact hlast hne
    · have htail : guideEntries dur endTime f (currentTime + dur i) (i + 1) = [] :=
        guideEntries_eq_nil dur endTime f _ _ hnext
      rw [htail]
      refine ⟨by simp, by simp, by simp, ?_, ?_⟩
      · intro p hp
        simp only [List.mem_singleton] at hp
        subst hp
        exact ⟨by omega, hlt⟩
      · intro h
        simp only [List.getLast_singleton]
        omega

lemma cycleDuration_pos {α : Type} (resolve : α → ℕ) (videos : List α)
    (hne : videos ≠ []) (hres : ∀ v ∈ videos, 0 < resolve v) (i : ℕ) :
    0 < cycleDuration resolve videos i := by
  cases videos with
  | nil => exact absurd rfl hne
  | cons v vs => exact hres _ (List.get_mem _ _ _)

/-- **C2.** For every channel with at least one segment and every positive
per-segment duration resolution (resolution failures substitute the positive
fallback, so every resolved duration is positive), the generated entries,
walked from `t0` with fuel `horizon`, are non-empty, start exactly at `t0`,
are contiguous (each stop equals the next start, so no gaps and no overlaps),
all start inside the horizon with positive length, and the final stop reaches
or passes `t0 + horizonSeconds` — together: they cover `[t0, t0 + 24h)`. -/
theorem guide_entries_cover_horizon {α : Type} (videos : List α) (resolve : α → ℕ)
    (t0 : ℕ) (hne : videos ≠ []) (hres : ∀ v ∈ videos, 0 < resolve v) :
    guideEntries (cycleDuration resolve videos) (t0 + horizonSeconds)
        horizonSeconds t0 0 ≠ [] ∧
    (guideEntries (cycleDuration resolve videos) (t0 + horizonSeconds)
        horizonSeconds t0 0).head?.map Prod.fst = some t0 ∧
    List.Chain' (fun a b => a.2 = b.1)
      (guideEntries (cycleDuration resolve videos) (t0 + horizonSeconds)
        horizonSeconds t0 0) ∧
    (∀ p ∈ guideEntries (cycleDuration resolve videos) (t0 + horizonSeconds)
        horizonSeconds t0 0, p.1 < p.2 ∧ p.1 < t0 + horizonSeconds) ∧
    ∀ h : guideEntries (cycleDuration resolve videos) (t0 + horizonSeconds)
        horizonSeconds t0 0 ≠ [],
      t0 + horizonSeconds ≤ ((guideEntries (cycleDuration resolve videos)
        (t0 + horizonSeconds) horizonSeconds t0 0).getLast h).2 :=
  guideEntries_spec (cycleDuration resolve videos) (t0 + horizonSeconds)
    (cycleDuration_pos resolve videos hne hres)
    horizonSeconds t0 0
    (by rw [horizonSeconds]; omega)
    (by omega)

/-- Concrete instance of C2: a single segment whose duration resolution failed
(fallback 30 s substituted), projected from `t0 = 0`. -/
theorem guide_entries_cover_horizon_witness :
    guideEntries (cycleDuration (fun _ => 30) [()]) (0 + horizonSeconds)
        horizonSeconds 0 0 ≠ [] ∧
    (guideEntries (cycleDuration (fun _ => 30) [()]) (0 + horizonSeconds)
        horizonSeconds 0 0).head?.map Prod.fst = some 0 ∧
    List.Chain' (fun a b => a.2 = b.1)
      (guideEntries (cycleDuration (fun _ => 30) [()]) (0 + horizonSeconds)
        horizonSeconds 0 0) ∧
    (∀ p ∈ guideEntries (cycleDuration (fun _ => 30) [()]) (0 + horizonSeconds)
        horizonSeconds 0 0, p.1 < p.2 ∧ p.1 < 0 + horizonSeconds) ∧
    ∀ h : guideEntries (cycleDuration (fun _ => 30) [()]) (0 + horizonSeconds)
        horizonSeconds 0 0 ≠ [],
      0 + horizonSeconds ≤ ((guideEntries (cycleDuration (fun _ => 30) [()])
        (0 + horizonSeconds) horizonSeconds 0 0).getLast h).2 :=
  guide_entries_cover_horizon [()] (fun _ => 30) 0 (by decide) (by decide)

/-! ## Duration cache (`StreamServer.get_video_duration` lines 99-151,
`db_helper.get_video_duration` / `set_video_duration` lines 122-140)

The sqlite `videos` table is embedded as an association list from filename to
the nullable `duration` column.  `db_helper.get_video_duration` returns the
cached value only when the row exists and the column is non-null;
`db_helper.set_video_duration` is an `UPDATE ... WHERE filename = ?` — it
changes nothing when no row matches.  The ffprobe call is abstracted into a
`ProbeOutcome`: either a parsed float duration or a failure (tool missing,
timeout, non-zero exit, unusable output, or any exception). -/

/-- The `videos` table: filename ↦ nullable cached duration (seconds). -/
def DurationDB : Type := List (String × Option ℚ)

/-- `db_helper.get_video_duration`: `SELECT duration ... WHERE filename = ?`,
`None` unless the row exists and its duration is non-null. -/
def db_get (db : DurationDB) (f : String) : Option ℚ :=
  match List.lookup f db with
  | some (some d) => some d
  | _ => none

/-- `db_helper.set_video_duration`: `UPDATE videos SET duration = ? WHERE
filename = ?` — rewrites matching rows only, a no-op when the filename has no
row. -/
def db_set (db : DurationDB) (f : String) (d : ℚ) : DurationDB :=
  db.map (fun p => if p.1 = f then (p.1, some d) else p)

/-- The 30-second fallback of `StreamServer.get_video_duration` line 111. -/
def FALLBACK_DURATION : ℚ := 30

/-- Outcome of the ffprobe subprocess in `get_video_duration` lines 113-145. -/
inductive ProbeOutcome where
  /-- ffprobe exited 0 and a `format.duration` float was parsed. -/
  | value (d : ℚ)
  /-- anything else: tool missing, timeout, non-zero exit, missing field,
  or an exception while probing. -/
  | failure
  deriving DecidableEq, Repr

/-- Lines 147-151: save the current `duration` variable to the database (when
a filename is known) and return it. -/
def saveFallback (db : DurationDB) (filename : Option String) (x : ℚ) : ℚ × DurationDB :=
  match filename with
  | some f => (x, db_set db f x)
  | none => (x, db)

/-- Lines 111-151 after the cache check: on a parsed positive duration, write
it back and return it; on a parsed non-positive duration the `duration`
variable has been overwritten, so the trailing save stores and returns that
value; on failure the trailing save stores and returns the 30 s fallback. -/
def probeAndFallback (db : DurationDB) (filename : Option String)
    (probe : ProbeOutcome) : ℚ × DurationDB :=
  match probe with
  | .value d =>
    if 0 < d then
      match filename with
      | some f => (d, db_set db f d)
      | none => (d, db)
    else saveFallback db filename d
  | .failure => saveFallback db filename FALLBACK_DURATION

/-- `StreamServer.get_video_duration` lines 99-151: cached value when the
filename is given and cached, else probe / fall back. -/
def get_video_duration (db : DurationDB) (filename : Option String)
    (probe : ProbeOutcome) : ℚ × DurationDB :=
  match filename with
  | some f =>
    match db_get db f with
    | some c => (c, db)
    | none => probeAndFallback db (some f) probe
  | none => probeAndFallback db none probe

/-- **C8.** Duration resolution precedence: a cached value is returned as-is
(no probe, cache untouched); on a cache miss a successfully probed positive
duration is written back to the cache and returned; on a cache miss with a
probe failure the fixed 30 s fallback is stored and returned — and the guide
loop emits exactly one entry for the segment and continues the walk whatever
duration was resolved. -/
theorem duration_resolution_precedence (db : DurationDB) (f : String)
    (probe : ProbeOutcome) (c d : ℚ) (dur : ℕ → ℕ) (endTime fuel t i : ℕ) :
    (db_get db f = some c → get_video_duration db (some f) probe = (c, db)) ∧
    (db_get db f = none → 0 < d →
      get_video_duration db (some f) (.value d) = (d, db_set db f d)) ∧
    (db_get db f = none →
      get_video_duration db (some f) .failure =
        (FALLBACK_DURATION, db_set db f FALLBACK_DURATION)) ∧
    (t < endTime →
      guideEntries dur endTime (fuel + 1) t i =
        (t, t + dur i) :: guideEntries dur endTime fuel (t + dur i) (i + 1)) := by
  refine ⟨?_, ?_, ?_, ?_⟩
  · intro hc
    rw [get_video_duration, hc]
  · intro hm hd
    rw [get_video_duration, hm, probeAndFallback, if_pos hd]
  · intro hm
    rw [get_video_duration, hm]
    rfl
  · intro ht
    rw [guideEntries, if_pos ht]

/-- Concrete instance of C8: a cache miss (`"b"`'s duration column is null)
with a probe failure stores and returns the 30 s fallback. -/
theorem duration_resolution_precedence_witness :
    get_video_duration [("b", none)] (some "b") .failure =
      (FALLBACK_DURATION, db_set [("b", none)] "b" FALLBACK_DURATION) :=
  (duration_resolution_precedence [("b", none)] "b" .failure 0 0 (fun _ => 30)
    1 0 0 0).2.2.1 (by decide)

/-! ### C10: is the fallback really cached for ever after?

`set_video_duration` is an `UPDATE`: for a filename that has **no row** in the
`videos` table the fallback write silently changes nothing, the next call
misses the cache again and probes again.  The claim holds only for filenames
that exist as rows (as playlist videos do). -/

lemma db_lookup_db_set (db : DurationDB) (f : String) (x : ℚ)
    (h : (List.lookup f db).isSome) :
    List.lookup f (db_set db f x) = some (some x) := by
  induction db with
  | nil => simp [List.lookup] at h
  | cons p db ih =>
    rcases p with ⟨k, v⟩
    by_cases hf : k = f
    · subst hf
      show List.lookup k ((if k = k then (k, some x) else (k, v)) :: db_set db k x) =
        some (some x)
      rw [if_pos rfl]
      simp [List.lookup]
    · have hbeq : (f == k) = false := beq_eq_false_iff_ne.mpr (fun he => hf he.symm)
      show List.lookup f ((if k = f then (k, some x) else (k, v)) :: db_set db f x) =
        some (some x)
      rw [if_neg hf]
      simp only [List.lookup, hbeq]
      apply ih
      simp only [List.lookup, hbeq] at h
      exact h

lemma db_get_db_set (db : DurationDB) (f : String) (x : ℚ)
    (h : (List.lookup f db).isSome) :
    db_get (db_set db f x) f = some x := by
  rw [db_get, db_lookup_db_set db f x h]

/-- **Counterexample to C10 as stated.** For a filename with no row in the
`videos` table, the fallback write is a silent no-op (`UPDATE` matches no row):
the first failing call returns 30 s but leaves the cache unchanged, and a
subsequent call probes again — here returning a freshly probed 5 s, not 30 s
from the cache. -/
theorem duration_fallback_not_cached_counterexample :
    get_video_duration [] (some "x") .failure = (FALLBACK_DURATION, []) ∧
    get_video_duration [] (some "x") (.value 5) = (5, []) := by
  constructor
  · rfl
  · rfl

/-- **C10 (amended).** For a filename that exists as a row in the `videos`
table but has no cached duration, a cache miss followed by a probe failure
writes the 30 s fallback into the cache and returns it; every subsequent call
for that filename then answers 30 s straight from the cache, independent of
the probe (the file is never probed again) and without touching the database.
-/
theorem duration_fallback_cached_for_known_files (db : DurationDB) (f : String)
    (probeLater : ProbeOutcome)
    (hrow : (List.lookup f db).isSome) (hmiss : db_get db f = none) :
    get_video_duration db (some f) .failure =
      (FALLBACK_DURATION, db_set db f FALLBACK_DURATION) ∧
    db_get (db_set db f FALLBACK_DURATION) f = some FALLBACK_DURATION ∧
    get_video_duration (db_set db f FALLBACK_DURATION) (some f) probeLater =
      (FALLBACK_DURATION, db_set db f FALLBACK_DURATION) := by
  have hcached := db_get_db_set db f FALLBACK_DURATION hrow
  refine ⟨?_, hcached, ?_⟩
  · rw [get_video_duration, hmiss]
    rfl
  · rw [get_video_duration, hcached]

/-- Concrete instance of C10 (amended): row `("a", null)` — miss, probe
failure, fallback cached; the next call returns 30 from the cache even though
its probe would have reported 5 s. -/
theorem duration_fallback_cached_for_known_files_witness :
    get_video_duration [("a", none)] (some "a") .failure =
      (FALLBACK_DURATION, db_set [("a", none)] "a" FALLBACK_DURATION) ∧
    db_get (db_set [("a", none)] "a" FALLBACK_DURATION) "a" = some FALLBACK_DURATION ∧
    get_video_duration (db_set [("a", none)] "a" FALLBACK_DURATION) (some "a")
        (.value 5) =
      (FALLBACK_DURATION, db_set [("a", none)] "a" FALLBACK_DURATION) :=
  duration_fallback_cached_for_known_files [("a", none)] "a" (.value 5)
    (by decide) (by decide)

/-! ## Bounded advance loops (`FeaturePlayer.advance_to_next_movie` lines
387-398, controller initial load loop lines 486-492)

Both loops step `movie_index` through the queue modulo its length, calling
`load_movie` on each candidate, with an explicit `tries` counter bounded by
`len(movie_paths)`.  `load_movie`'s success is abstracted as
`loadable : ℕ → Bool` over queue positions. -/

/-- The `while tries < len(movie_paths)` loop of `advance_to_next_movie`:
advance the index first, then try to load, with the given remaining tries. -/
def advanceAux (loadable : ℕ → Bool) (n : ℕ) : ℕ → ℕ → Option ℕ
  | _, 0 => none
  | idx, t + 1 =>
    if loadable ((idx + 1) % n) then some ((idx + 1) % n)
    else advanceAux loadable n ((idx + 1) % n) t

/-- `advance_to_next_movie` (lines 387-398): fail on an empty queue, else run
the bounded loop with `tries` budget `n`; returns the successfully loaded
index, `none` when the session must stop. -/
def advance_to_next_movie (loadable : ℕ → Bool) (n idx : ℕ) : Option ℕ :=
  if n = 0 then none else advanceAux loadable n idx n

/-- The candidate indices `advance_to_next_movie` calls `load_movie` on,
in order. -/
def advanceAttempts (loadable : ℕ → Bool) (n : ℕ) : ℕ → ℕ → List ℕ
  | _, 0 => []
  | idx, t + 1 =>
    if loadable ((idx + 1) % n) then [(idx + 1) % n]
    else ((idx + 1) % n) :: advanceAttempts loadable n ((idx + 1) % n) t

/-- The initial feature-load loop of the controller (lines 486-492): try the
current index first, then advance, bounded by the same `tries` budget. -/
def initAux (loadable : ℕ → Bool) (n : ℕ) : ℕ → ℕ → Option ℕ
  | _, 0 => none
  | idx, t + 1 =>
    if loadable idx then some idx else initAux loadable n ((idx + 1) % n) t

/-- The candidate indices the initial load loop calls `load_movie` on. -/
def initAttempts (loadable : ℕ → Bool) (n : ℕ) : ℕ → ℕ → List ℕ
  | _, 0 => []
  | idx, t + 1 =>
    if loadable idx then [idx] else idx :: initAttempts loadable n ((idx + 1) % n) t

lemma advanceAttempts_eq_init (loadable : ℕ → Bool) (n : ℕ) :
    ∀ t idx, advanceAttempts loadable n idx t = initAttempts loadable n ((idx + 1) % n) t := by
  intro t
  induction t with
  | zero => intro idx; rfl
  | succ t ih =>
    intro idx
    rw [advanceAttempts, initAttempts]
    by_cases h : loadable ((idx + 1) % n)
    · rw [if_pos h, if_pos h]
    · rw [if_neg h, if_neg h, ih]

lemma advanceAux_eq_init (loadable : ℕ → Bool) (n : ℕ) :
    ∀ t idx, advanceAux loadable n idx t = initAux loadable n ((idx + 1) % n) t := by
  intro t
  induction t with
  | zero => intro idx; rfl
  | succ t ih =>
    intro idx
    rw [advanceAux, initAux]
    by_cases h : loadable ((idx + 1) % n)
    · rw [if_pos h, if_pos h]
    · rw [if_neg h, if_neg h, ih]

lemma initAttempts_shape (loadable : ℕ → Bool) (n : ℕ) (hn : 0 < n) :
    ∀ t s, s < n → ∃ m, m ≤ t ∧
      initAttempts loadable n s t = (List.range m).map (fun k => (s + k) % n) := by
  intro t
  induction t with
  | zero => intro s _; exact ⟨0, le_refl 0, rfl⟩
  | succ t ih =>
    intro s hs
    rw [initAttempts]
    by_cases h : loadable s
    · refine ⟨1, by omega, ?_⟩
      rw [if_pos h]
      have hone : (List.range 1).map (fun k => (s + k) % n) = [(s + 0) % n] := rfl
      rw [hone, Nat.add_zero, Nat.mod_eq_of_lt hs]
    · obtain ⟨m, hm, hshape⟩ := ih ((s + 1) % n) (Nat.mod_lt _ hn)
      refine ⟨m + 1, by omega, ?_⟩
      rw [if_neg h, hshape, List.range_succ_eq_map, List.map_cons, List.map_map]
      congr 1
      · rw [Nat.add_zero, Nat.mod_eq_of_lt hs]
      · apply List.map_congr_left
        intro k _
        show ((s + 1) % n + k) % n = (s + (k + 1)) % n
        rw [Nat.mod_add_mod]
        congr 1
        omega

lemma mod_window_nodup (n : ℕ) (s m : ℕ) (hm : m ≤ n) :
    ((List.range m).map (fun k => (s + k) % n)).Nodup := by
  refine List.Nodup.map_on ?_ (List.nodup_range m)
  intro x hx y hy hxy
  rw [List.mem_range] at hx hy
  have hcong : x ≡ y [MOD n] := Nat.ModEq.add_left_cancel' s hxy
  rwa [Nat.ModEq, Nat.mod_eq_of_lt (by omega), Nat.mod_eq_of_lt (by omega)] at hcong

lemma initAux_none_of_all_fail (loadable : ℕ → Bool) (n : ℕ) (hn : 0 < n)
    (hfail : ∀ i, i < n → loadable i = false) :
    ∀ t s, s < n → initAux loadable n s t = none := by
  intro t
  induction t with
  | zero => intro s _; rfl
  | succ t ih =>
    intro s hs
    rw [initAux, if_neg (by rw [hfail s hs]; exact Bool.false_ne_true)]
    exact ih ((s + 1) % n) (Nat.mod_lt _ hn)

lemma initAux_some_loadable (loadable : ℕ → Bool) (n : ℕ) :
    ∀ t s j, initAux loadable n s t = some j → loadable j = true := by
  intro t
  induction t with
  | zero => intro s j h; exact absurd h (by rw [initAux]; exact Option.noConfusion)
  | succ t ih =>
    intro s j h
    rw [initAux] at h
    by_cases hl : loadable s
    · rw [if_pos hl] at h
      cases h
      exact hl
    · rw [if_neg hl] at h
      exact ih ((s + 1) % n) j h

/-- **C9.** Both the advance-to-next-feature loop and the controller's initial
feature-load loop are bounded to one pass over the queue: each makes at most
`n` load attempts, never tries the same queue position twice, any returned
index really loaded, and when no queue position is loadable both return
`none` — the session reaches the stopped state instead of retrying
indefinitely. -/
theorem advance_loops_single_pass (loadable : ℕ → Bool) (n idx : ℕ)
    (hn : 0 < n) (hidx : idx < n) :
    ((advanceAttempts loadable n idx n).length ≤ n ∧
     (advanceAttempts loadable n idx n).Nodup ∧
     (∀ j, advance_to_next_movie loadable n idx = some j → loadable j = true) ∧
     ((∀ i, i < n → loadable i = false) → advance_to_next_movie loadable n idx = none)) ∧
    ((initAttempts loadable n idx n).length ≤ n ∧
     (initAttempts loadable n idx n).Nodup ∧
     (∀ j, initAux loadable n idx n = some j → loadable j = true) ∧
     ((∀ i, i < n → loadable i = false) → initAux loadable n idx n = none)) := by
  have hidx1 : (idx + 1) % n < n := Nat.mod_lt _ hn
  obtain ⟨m, hm, hshape⟩ := initAttempts_shape loadable n hn n ((idx + 1) % n) hidx1
  obtain ⟨m', hm', hshape'⟩ := initAttempts_shape loadable n hn n idx hidx
  have hne0 : n ≠ 0 := by omega
  constructor
  · refine ⟨?_, ?_, ?_, ?_⟩
    · rw [advanceAttempts_eq_init, hshape, List.length_map, List.length_range]
      exact hm
    · rw [advanceAttempts_eq_init, hshape]
      exact mod_window_nodup n _ m hm
    · intro j hj
      rw [advance_to_next_movie, if_neg hne0, advanceAux_eq_init] at hj
      exact initAux_some_loadable loadable n n ((idx + 1) % n) j hj
    · intro hfail
      rw [advance_to_next_movie, if_neg hne0, advanceAux_eq_init]
      exact initAux_none_of_all_fail loadable n hn hfail n ((idx + 1) % n) hidx1
  · refine ⟨?_, ?_, ?_, ?_⟩
    · rw [hshape', List.length_map, List.length_range]
      exact hm'
    · rw [hshape']
      exact mod_window_nodup n _ m' hm'
    · exact initAux_some_loadable loadable n n idx
    · intro hfail
      exact initAux_none_of_all_fail loadable n hn hfail n idx hidx

/-- Concrete instance of C9: queue of 3 with nothing loadable, starting at
index 0 — at most 3 distinct attempts, both loops return `none`. -/
theorem advance_loops_single_pass_witness :
    ((advanceAttempts (fun _ => false) 3 0 3).length ≤ 3 ∧
     (advanceAttempts (fun _ => false) 3 0 3).Nodup ∧
     (∀ j, advance_to_next_movie (fun _ => false) 3 0 = some j →
       (fun _ => false : ℕ → Bool) j = true) ∧
     ((∀ i, i < 3 → (fun _ => false : ℕ → Bool) i = false) →
       advance_to_next_movie (fun _ => false) 3 0 = none)) ∧
    ((initAttempts (fun _ => false) 3 0 3).length ≤ 3 ∧
     (initAttempts (fun _ => false) 3 0 3).Nodup ∧
     (∀ j, initAux (fun _ => false) 3 0 3 = some j →
       (fun _ => false : ℕ → Bool) j = true) ∧
     ((∀ i, i < 3 → (fun _ => false : ℕ → Bool) i = false) →
       initAux (fun _ => false) 3 0 3 = none)) :=
  advance_loops_single_pass (fun _ => false) 3 0 (by decide) (by decide)

end RetroViewer
